import Mathlib

/-!
Shallow embedding of the content indexing and retrieval layer of a blog
application, together with proofs about its repository, query, pagination
and heading-extraction operations.

The embedding covers:
* `src/lib/mdx.ts` — the post repository (`getBlogPosts`, `getBlogPost`)
  and the query layer (`getBlogPostsByTag`, `getBlogPostsBySearch`);
* `src/app/api/posts/route.ts` — the search endpoint handler;
* the tags page (`TagsPage`) distinct-tag computation;
* the blog listing page (`BlogPage`) pagination arithmetic;
* the table-of-contents heading extractor (`extractHeadings`).

Modelling conventions: JavaScript strings are lists of characters;
`new Date(s).getTime()` of a post's ISO date string is modelled by an
integer `date` field (the spec requires every date to be parseable);
a source document is its filename together with the outcome of
front-matter parsing (`none` models `gray-matter`/`readFileSync`
throwing); functions that can propagate a JavaScript exception return
`Except Unit`, and functions that catch all errors return `Option`.
-/

namespace Blog

/-- JavaScript strings, modelled as lists of characters. -/
abbrev Str := List Char

/-- Model of JavaScript `String.prototype.toLowerCase` (character-wise
lowering; the posts' metadata is ASCII, where `Char.toLower` agrees with
the JavaScript behaviour). -/
def toLowerCase (s : Str) : Str := s.map Char.toLower

/-- Model of JavaScript `String.prototype.includes`: `includes s q` is
`true` iff `q` occurs as a contiguous substring of `s` (in particular
`includes s [] = true`, as in JavaScript). -/
def includes (s q : Str) : Bool := decide (q <:+: s)

/-- Model of JavaScript `s.replace(pat, '')` with a string pattern: remove
the first occurrence of `pat` from `s` (identity when `pat` is absent). -/
def replaceFirst (pat : Str) : Str → Str
  | [] => []
  | c :: cs =>
    if pat.isPrefixOf (c :: cs) then (c :: cs).drop pat.length
    else c :: replaceFirst pat cs

/-- The `.mdx` filename extension. -/
def mdxExt : Str := ".mdx".toList

/-- The metadata and body produced by `matter(fileContents)` for one
well-formed document, with `date` already in `getTime` form (see the
module docstring). -/
structure FrontMatter where
  title : Str
  date : Int
  description : Str
  content : Str
  tags : List Str
  author : Str
  readingTime : Str
  image : Option Str
deriving DecidableEq

/-- One document of the content directory: its filename and the outcome
of reading-and-parsing it. `parsed = none` models a malformed or
unreadable file (`readFileSync`/`matter` throwing). -/
structure SourceFile where
  name : Str
  parsed : Option FrontMatter
deriving DecidableEq

/-- The `BlogPost` record assembled by the repository (`mdx.ts`). -/
structure BlogPost where
  slug : Str
  title : Str
  date : Int
  description : Str
  content : Str
  tags : List Str
  author : Str
  readingTime : Str
  image : Option Str
deriving DecidableEq

/-- Assembling one `BlogPost` from a filename and its parsed front
matter, as in the `files.map` callback of `getBlogPosts`:
`slug = filename.replace('.mdx', '')`, the metadata fields are copied,
and `content` is the body. (The `data.tags || []` default is part of
successful parsing, so `tags` is already a list here.) -/
def toPost (filename : Str) (fm : FrontMatter) : BlogPost :=
  { slug := replaceFirst mdxExt filename
    title := fm.title
    date := fm.date
    description := fm.description
    content := fm.content
    tags := fm.tags
    author := fm.author
    readingTime := fm.readingTime
    image := fm.image }

/-- The read-and-parse loop inside `getBlogPosts`: each file is read with
`fs.readFileSync` and parsed with `matter`, with no per-file `try`/`catch`,
so the first failure propagates and aborts the whole listing. -/
def readPosts : List SourceFile → Except Unit (List BlogPost)
  | [] => .ok []
  | f :: fs =>
    match f.parsed with
    | none => .error ()
    | some fm =>
      match readPosts fs with
      | .error e => .error e
      | .ok ps => .ok (toPost f.name fm :: ps)

/-- The sort comparator of `getBlogPosts`:
`(a, b) => new Date(b.date).getTime() - new Date(a.date).getTime()`,
i.e. `a` may come before `b` exactly when the comparator is `≤ 0`,
that is when `b.date ≤ a.date` (dates descending; ties keep their
relative order, as a stable JavaScript `sort`). -/
def dateDesc (a b : BlogPost) : Bool := decide (b.date ≤ a.date)

/-- `getBlogPosts` (`mdx.ts`): read every file of the content directory,
build a `BlogPost` for each, and sort by date descending. -/
def getBlogPosts (files : List SourceFile) : Except Unit (List BlogPost) :=
  match readPosts files with
  | .error e => .error e
  | .ok posts => .ok (posts.mergeSort dateDesc)

/-- `getBlogPost` (`mdx.ts`): read the single file `slug + ".mdx"`; the
whole body is wrapped in `try`/`catch`, and any error (missing file,
malformed front matter) yields `null`, modelled as `none`. The returned
record carries the requested `slug` directly. -/
def getBlogPost (files : List SourceFile) (slug : Str) : Option BlogPost :=
  match files.find? (fun f => f.name == slug ++ mdxExt) with
  | none => none
  | some f =>
    match f.parsed with
    | none => none
    | some fm =>
      some { slug := slug
             title := fm.title
             date := fm.date
             description := fm.description
             content := fm.content
             tags := fm.tags
             author := fm.author
             readingTime := fm.readingTime
             image := fm.image }

/-- `getBlogPostsByTag` (`mdx.ts`): filter the full listing by
`post.tags.includes(tag)` — an exact, case-sensitive membership test. -/
def getBlogPostsByTag (files : List SourceFile) (tag : Str) :
    Except Unit (List BlogPost) :=
  match getBlogPosts files with
  | .error e => .error e
  | .ok posts => .ok (posts.filter (fun p => p.tags.contains tag))

/-- The search predicate inside `getBlogPostsBySearch`:
`post.title.toLowerCase().includes(searchQuery) ||
 post.description.toLowerCase().includes(searchQuery)`. -/
def matchesSearch (searchQuery : Str) (p : BlogPost) : Bool :=
  includes (toLowerCase p.title) searchQuery ||
  includes (toLowerCase p.description) searchQuery

/-- `getBlogPostsBySearch` (`mdx.ts`): lowercase the query and filter the
full listing by the search predicate. -/
def getBlogPostsBySearch (files : List SourceFile) (query : Str) :
    Except Unit (List BlogPost) :=
  match getBlogPosts files with
  | .error e => .error e
  | .ok posts => .ok (posts.filter (matchesSearch (toLowerCase query)))

/-- The `GET` handler of `src/app/api/posts/route.ts`: the `keywords`
query parameter (absent modelled as `none`) is lowercased with a default
of the empty string; an empty keyword short-circuits to the empty JSON
list, otherwise the handler delegates to `getBlogPostsBySearch`. -/
def apiGetPosts (files : List SourceFile) (keywords : Option Str) :
    Except Unit (List BlogPost) :=
  let keyword := match keywords with
    | some s => toLowerCase s
    | none => []
  if keyword = [] then .ok []
  else getBlogPostsBySearch files keyword

/-- Model of `Array.from(new Set(...))`: de-duplicate keeping the first
occurrence of each element, in insertion order. -/
def jsSetDedup : List Str → List Str
  | [] => []
  | t :: ts => t :: jsSetDedup (ts.filter (fun x => x ≠ t))
termination_by l => l.length
decreasing_by
  simp only [List.length_cons]
  exact Nat.lt_succ_of_le (List.length_filter_le _ _)

/-- The distinct-tag computation of the tags page (`TagsPage`):
`Array.from(new Set(posts.flatMap(post => post.tags)))`. -/
def tagsPageTags (files : List SourceFile) : Except Unit (List Str) :=
  match getBlogPosts files with
  | .error e => .error e
  | .ok posts => .ok (jsSetDedup (posts.flatMap (fun p => p.tags)))

/-- Clamping of one (possibly negative) index by `Array.prototype.slice`:
a negative index counts from the end (clamped below at 0), a non-negative
one is clamped above at the length. -/
def jsSliceIndex (len : Nat) (i : Int) : Nat :=
  if i < 0 then ((len : Int) + i).toNat else min i.toNat len

/-- Model of JavaScript `Array.prototype.slice(start, stop)`; total for
every pair of integer indices (`slice` never throws). -/
def jsSlice {α : Type} (l : List α) (start stop : Int) : List α :=
  let s := jsSliceIndex l.length start
  let e := jsSliceIndex l.length stop
  (l.drop s).take (e - s)

/-- `maxItemsPerPage` of the blog listing page (`BlogPage`). -/
def maxItemsPerPage : Nat := 6

/-- `totalPages = Math.ceil(posts.length / maxItemsPerPage)` of
`BlogPage`, as the ceiling division `⌈length / 6⌉`. -/
def blogPageTotalPages (posts : List BlogPost) : Nat :=
  (posts.length + (maxItemsPerPage - 1)) / maxItemsPerPage

/-- The page slice of `BlogPage`:
`startIndex = (pageNumber - 1) * maxItemsPerPage` and
`posts.slice(startIndex, startIndex + maxItemsPerPage)`. The page number
is an arbitrary integer: the page never validates it. -/
def blogPagePosts (posts : List BlogPost) (pageNumber : Int) : List BlogPost :=
  let startIndex : Int := (pageNumber - 1) * (maxItemsPerPage : Int)
  jsSlice posts startIndex (startIndex + (maxItemsPerPage : Int))

/-- A character of the regular-expression class `\w`, i.e. `[A-Za-z0-9_]`. -/
def isWordChar (c : Char) : Bool := c.isAlphanum || c = '_'

/-- Model of `replace(/[^\w]+/g, '-')`: every maximal run of non-word
characters is replaced by a single hyphen (structurally recursive with a
one-character lookahead: inside a non-word run, the single hyphen is
emitted at the run's last character). -/
def collapseNonWord : Str → Str
  | [] => []
  | [c] => if isWordChar c then [c] else ['-']
  | c :: d :: rest =>
    if isWordChar c then c :: collapseNonWord (d :: rest)
    else if isWordChar d then '-' :: collapseNonWord (d :: rest)
    else collapseNonWord (d :: rest)

/-- The heading-id transform of `extractHeadings`:
`text.toLowerCase().replace(/[^\w]+/g, '-')`. -/
def headingId (text : Str) : Str := collapseNonWord (toLowerCase text)

/-- The mdast inline nodes relevant to headings: literal text, inline
code, and the two formatting containers (`strong`, `emphasis`) whose
children are nested inline nodes. -/
inductive Inline where
  | text (value : Str)
  | inlineCode (value : Str)
  | strong (children : List Inline)
  | emphasis (children : List Inline)

/-- The backquote character (code point 96), delimiter of inline code. -/
def backquote : Char := Char.ofNat 96

/-- Split `s` at the first occurrence of `delim`: the part before it and
the part after it, or `none` when `delim` does not occur. -/
def splitAtFirst (delim : Str) : Str → Option (Str × Str)
  | [] => if delim.isPrefixOf ([] : Str) then some ([], []) else none
  | c :: cs =>
    if delim.isPrefixOf (c :: cs) then some ([], (c :: cs).drop delim.length)
    else
      match splitAtFirst delim cs with
      | none => none
      | some (a, b) => some (c :: a, b)

/-- Fuel-indexed model of the remark inline parser on the fragment the
headings of this repository use: `**strong**`, `*emphasis*` and
backquoted inline code, with every other character a literal text node.
Adjacent literal characters become separate `text` nodes; the extractor
only ever joins their values, so this granularity is immaterial. The
fuel (always instantiated to more than the input length) only
discharges termination. -/
def parseInlineF : Nat → Str → List Inline
  | 0, s => if s = [] then [] else [.text s]
  | _ + 1, [] => []
  | fuel + 1, '*' :: '*' :: rest =>
    match splitAtFirst ('*' :: '*' :: []) rest with
    | some (inner, after) =>
      if inner = [] then .text ('*' :: []) :: parseInlineF fuel ('*' :: rest)
      else .strong (parseInlineF fuel inner) :: parseInlineF fuel after
    | none => .text ('*' :: []) :: .text ('*' :: []) :: parseInlineF fuel rest
  | fuel + 1, '*' :: rest =>
    match splitAtFirst ('*' :: []) rest with
    | some (inner, after) =>
      .emphasis (parseInlineF fuel inner) :: parseInlineF fuel after
    | none => .text ('*' :: []) :: parseInlineF fuel rest
  | fuel + 1, c :: cs =>
    if c = backquote then
      match splitAtFirst (backquote :: []) cs with
      | some (inner, after) => .inlineCode inner :: parseInlineF fuel after
      | none => .text (c :: []) :: parseInlineF fuel cs
    else .text (c :: []) :: parseInlineF fuel cs

/-- The remark inline parse of a heading's content. -/
def parseInline (s : Str) : List Inline := parseInlineF (s.length + 1) s

/-- Parse one line as an ATX heading: 1–6 `#` characters followed by a
space (or end of line), the rest (leading spaces dropped) being the
heading content. Non-heading lines yield `none`. -/
def parseHeadingLine (line : Str) : Option (Nat × Str) :=
  let k := (line.takeWhile (fun c => c = '#')).length
  if 1 ≤ k ∧ k ≤ 6 then
    match line.drop k with
    | [] => some (k, [])
    | ' ' :: rest => some (k, rest.dropWhile (fun c => c = ' '))
    | _ => none
  else none

/-- The headings of a markdown document, as remark produces them for the
line-structured documents this repository contains: each ATX heading
line, in document order, with its depth and parsed inline children. -/
def markdownHeadings (md : Str) : List (Nat × List Inline) :=
  (md.splitOn '\n').filterMap
    (fun line =>
      match parseHeadingLine line with
      | none => none
      | some kt => some (kt.1, parseInline kt.2))

/-- The text assembled by the `visit` callback of `extractHeadings`:
`node.children.filter(n => n.type === 'text' || n.type === 'inlineCode')
 .map(n => n.value).join('')` — only the top-level `text` and
`inlineCode` children contribute; `strong`/`emphasis` nodes have no
`value` and are filtered out together with their nested content. -/
def headingTextOfChildren (children : List Inline) : Str :=
  (children.filterMap
    (fun n =>
      match n with
      | .text v => some v
      | .inlineCode v => some v
      | .strong _ => none
      | .emphasis _ => none)).flatten

/-- One entry of the table-of-contents outline. -/
structure Heading where
  id : Str
  text : Str
  level : Nat
deriving DecidableEq

/-- `extractHeadings` (the table-of-contents extractor): visit every
heading of the parsed markdown in document order and emit its id, text
and depth. -/
def extractHeadings (markdown : Str) : List Heading :=
  (markdownHeadings markdown).map
    (fun kc =>
      let text := headingTextOfChildren kc.2
      { id := headingId text, text := text, level := kc.1 })

/-- The spec's notion that `hay` contains `needle` as a case-insensitive
substring. -/
def containsCaseInsensitive (hay needle : Str) : Prop :=
  toLowerCase needle <:+: toLowerCase hay

instance (hay needle : Str) : Decidable (containsCaseInsensitive hay needle) :=
  inferInstanceAs (Decidable (_ <:+: _))

mutual

/-- Modelled from the spec: the literal text of an inline span, where
nested formatting (bold/italic) contributes the literal text of its
children — the behaviour §4.4 prescribes for the extractor. -/
def literalText : Inline → Str
  | .text v => v
  | .inlineCode v => v
  | .strong children => literalTextList children
  | .emphasis children => literalTextList children

/-- Modelled from the spec: concatenated literal text of a list of
inline spans (see `literalText`). -/
def literalTextList : List Inline → Str
  | [] => []
  | n :: ns => literalText n ++ literalTextList ns

end

/-! ### Demonstration fixtures

A small concrete content directory used to instantiate the theorems. -/

/-- Front matter of the first demo document (most recent). -/
def demoFM1 : FrontMatter :=
  { title := "Alpha".toList
    date := 30
    description := "First post".toList
    content := "# A".toList
    tags := ["dotnet".toList, "web".toList]
    author := "Steve".toList
    readingTime := "3 min".toList
    image := none }

/-- Front matter of the second demo document (oldest). -/
def demoFM2 : FrontMatter :=
  { title := "Beta".toList
    date := 10
    description := "Second post".toList
    content := "## B".toList
    tags := ["dotnet".toList]
    author := "Steve".toList
    readingTime := "5 min".toList
    image := none }

/-- Front matter of the third demo document (middle date). -/
def demoFM3 : FrontMatter :=
  { title := "Gamma".toList
    date := 20
    description := "Third post".toList
    content := "### C".toList
    tags := []
    author := "Mai".toList
    readingTime := "2 min".toList
    image := some "/img/g.png".toList }

/-- A demo content directory of three well-formed documents, not in date
order on disk. -/
def demoFiles : List SourceFile :=
  [ { name := "alpha.mdx".toList, parsed := some demoFM1 }
  , { name := "beta.mdx".toList, parsed := some demoFM2 }
  , { name := "gamma.mdx".toList, parsed := some demoFM3 } ]

/-- A malformed document: reading/parsing it throws. -/
def demoBadFile : SourceFile := { name := "broken.mdx".toList, parsed := none }

/-- A minimal post used to build collections of a given size. -/
def demoPost (n : Nat) : BlogPost :=
  { slug := []
    title := []
    date := (n : Int)
    description := []
    content := []
    tags := []
    author := []
    readingTime := []
    image := none }

/-! ### Helper lemmas -/

theorem char_ofNat_toNat (n : Nat) (hv : n.isValidChar) :
    (Char.ofNat n).toNat = n := by
  simp only [Char.ofNat, hv, dif_pos]
  rfl

theorem toLower_idem (c : Char) :
    Char.toLower (Char.toLower c) = Char.toLower c := by
  by_cases h : c.toNat ≥ 65 ∧ c.toNat ≤ 90
  · have hv : (c.toNat + 32).isValidChar := Or.inl (by omega)
    have h1 : Char.toLower c = Char.ofNat (c.toNat + 32) := by
      simp only [Char.toLower]
      rw [if_pos h]
    have h2 : (Char.toLower c).toNat = c.toNat + 32 := by
      rw [h1, char_ofNat_toNat _ hv]
    have h3 : ¬ ((Char.toLower c).toNat ≥ 65 ∧ (Char.toLower c).toNat ≤ 90) := by
      omega
    conv_lhs => rw [Char.toLower]
    rw [if_neg h3]
  · have h1 : Char.toLower c = c := by
      simp only [Char.toLower]
      rw [if_neg h]
    rw [h1, h1]

theorem toLowerCase_idem (s : Str) :
    toLowerCase (toLowerCase s) = toLowerCase s := by
  induction s with
  | nil => rfl
  | cons c cs ih =>
    simp only [toLowerCase, List.map_cons] at ih ⊢
    rw [toLower_idem, ih]

theorem readPosts_error_of_malformed (files : List SourceFile)
    (f : SourceFile) (hf : f ∈ files) (hp : f.parsed = none) :
    readPosts files = .error () := by
  induction files with
  | nil => cases hf
  | cons g gs ih =>
    cases hf with
    | head => simp [readPosts, hp]
    | tail _ h =>
      simp only [readPosts]
      cases hg : g.parsed with
      | none => rfl
      | some fm => rw [ih h]

theorem readPosts_ok_of_wellFormed (files : List SourceFile)
    (h : ∀ f ∈ files, f.parsed ≠ none) :
    ∃ ps, readPosts files = .ok ps ∧ ps.length = files.length := by
  induction files with
  | nil => exact ⟨[], rfl, rfl⟩
  | cons g gs ih =>
    obtain ⟨ps, hps, hlen⟩ := ih (fun f hf => h f (List.mem_cons_of_mem _ hf))
    cases hg : g.parsed with
    | none => exact absurd hg (h g (List.mem_cons_self _ _))
    | some fm =>
      refine ⟨toPost g.name fm :: ps, ?_, by simp [hlen]⟩
      simp only [readPosts, hg, hps]

theorem dateDesc_trans (a b c : BlogPost) (h1 : dateDesc a b = true)
    (h2 : dateDesc b c = true) : dateDesc a c = true := by
  simp only [dateDesc, decide_eq_true_eq] at h1 h2 ⊢
  omega

theorem dateDesc_total (a b : BlogPost) :
    (dateDesc a b || dateDesc b a) = true := by
  simp only [dateDesc, Bool.or_eq_true, decide_eq_true_eq]
  omega

theorem getBlogPosts_pairwise (files : List SourceFile)
    (ps : List BlogPost) (h : getBlogPosts files = .ok ps) :
    ps.Pairwise (fun a b => b.date ≤ a.date) := by
  unfold getBlogPosts at h
  cases hr : readPosts files with
  | error e => rw [hr] at h; cases h
  | ok posts =>
    rw [hr] at h
    injection h with h
    subst h
    have := List.sorted_mergeSort dateDesc_trans dateDesc_total posts
    exact this.imp (fun hab => by
      simpa [dateDesc, decide_eq_true_eq] using hab)

theorem getBlogPosts_ok_length (files : List SourceFile)
    (h : ∀ f ∈ files, f.parsed ≠ none) :
    ∃ ps, getBlogPosts files = .ok ps ∧ ps.length = files.length := by
  obtain ⟨ps, hps, hlen⟩ := readPosts_ok_of_wellFormed files h
  refine ⟨ps.mergeSort dateDesc, ?_, ?_⟩
  · simp only [getBlogPosts, hps]
  · rw [(List.mergeSort_perm ps dateDesc).length_eq, hlen]

/-- The demo directory's full listing, in date-descending order. -/
def demoPostsSorted : List BlogPost :=
  [ toPost "alpha.mdx".toList demoFM1
  , toPost "gamma.mdx".toList demoFM3
  , toPost "beta.mdx".toList demoFM2 ]

/-! ### Claim C1 -/

/-- Claim C1 fails as stated: at the library function
`getBlogPostsBySearch`, an empty query does not return an empty
sequence — on a concrete non-empty content set it returns the full
(non-empty) listing, because `includes` with an empty needle is always
true. -/
theorem C1_empty_query_counterexample :
    getBlogPosts demoFiles = .ok demoPostsSorted ∧
    demoPostsSorted ≠ [] ∧
    getBlogPostsBySearch demoFiles [] = .ok demoPostsSorted := by
  refine ⟨?_, by simp [demoPostsSorted], ?_⟩
  · simp [getBlogPosts, readPosts, demoFiles, List.mergeSort, dateDesc,
      demoFM1, demoFM2, demoFM3, toPost, demoPostsSorted]
  · simp [getBlogPostsBySearch, getBlogPosts, readPosts, demoFiles,
      List.mergeSort, dateDesc, demoFM1, demoFM2, demoFM3, toPost,
      demoPostsSorted, matchesSearch, includes, toLowerCase,
      List.nil_infix, List.filter]

/-- Claim C1, amended: the guard against dumping the catalog on an empty
or missing query lives only in the search endpoint — `apiGetPosts`
returns the empty sequence for a missing or empty `keywords` parameter —
while the library function `getBlogPostsBySearch` applied to the empty
query returns the full listing. -/
theorem C1_empty_query_amended :
    (∀ files : List SourceFile,
      apiGetPosts files none = .ok [] ∧ apiGetPosts files (some []) = .ok []) ∧
    (∀ (files : List SourceFile) (posts : List BlogPost),
      getBlogPosts files = .ok posts →
      getBlogPostsBySearch files [] = .ok posts) := by
  constructor
  · intro files
    exact ⟨rfl, rfl⟩
  · intro files posts h
    simp only [getBlogPostsBySearch, h]
    congr 1
    have : ∀ p ∈ posts, matchesSearch (toLowerCase []) p = true := by
      intro p _
      simp [matchesSearch, toLowerCase, includes, List.nil_infix]
    rw [List.filter_congr this, List.filter_true]

/-- Witness for the amended claim C1 at the demo content set. -/
theorem C1_empty_query_amended_witness :
    apiGetPosts demoFiles none = .ok [] ∧
    getBlogPostsBySearch demoFiles [] = .ok demoPostsSorted := by
  refine ⟨(C1_empty_query_amended.1 demoFiles).1, ?_⟩
  refine C1_empty_query_amended.2 demoFiles demoPostsSorted ?_
  simp [getBlogPosts, readPosts, demoFiles, List.mergeSort, dateDesc,
    demoFM1, demoFM2, demoFM3, toPost, demoPostsSorted]

/-! ### Claim C2 -/

/-- Claim C2 fails as stated: with three well-formed documents plus one
malformed one, `getBlogPosts` does not return the three valid posts — it
propagates the error (the listing has no per-document isolation). -/
theorem C2_malformed_aborts_counterexample :
    getBlogPosts (demoFiles ++ [demoBadFile]) = .error () := by
  simp [getBlogPosts, readPosts, demoFiles, demoBadFile]

/-- Claim C2, amended: a malformed document among the sources makes
`getBlogPosts` propagate the error instead of skipping the document
(only the single-post lookup `getBlogPost` isolates failures); when
every document is well-formed, `getBlogPosts` returns all of them. -/
theorem C2_malformed_aborts_amended :
    (∀ (files : List SourceFile) (f : SourceFile),
      f ∈ files → f.parsed = none → getBlogPosts files = .error ()) ∧
    (∀ files : List SourceFile, (∀ f ∈ files, f.parsed ≠ none) →
      ∃ ps, getBlogPosts files = .ok ps ∧ ps.length = files.length) := by
  constructor
  · intro files f hf hp
    simp only [getBlogPosts, readPosts_error_of_malformed files f hf hp]
  · exact getBlogPosts_ok_length

/-- Witness for the amended claim C2: the mixed directory aborts, the
all-well-formed directory yields its three posts. -/
theorem C2_malformed_aborts_amended_witness :
    getBlogPosts (demoFiles ++ [demoBadFile]) = .error () ∧
    ∃ ps, getBlogPosts demoFiles = .ok ps ∧ ps.length = 3 := by
  constructor
  · exact C2_malformed_aborts_amended.1 (demoFiles ++ [demoBadFile])
      demoBadFile (by simp) rfl
  · simpa [demoFiles] using
      C2_malformed_aborts_amended.2 demoFiles (by simp [demoFiles])

/-! ### Claim C3 -/

/-- Claim C3: the listing returned by `getBlogPosts` is sorted by date
descending — for every pair of indices `i < j`, the date at `i` is at
least the date at `j`. -/
theorem C3_listAll_sorted_by_date_desc :
    ∀ (files : List SourceFile) (ps : List BlogPost),
      getBlogPosts files = .ok ps →
      ∀ (i j : Fin ps.length), i < j → (ps.get j).date ≤ (ps.get i).date := by
  intro files ps h i j hij
  exact (List.pairwise_iff_get.mp (getBlogPosts_pairwise files ps h)) i j hij

/-- Witness for claim C3 at the demo content set (file order is not date
order, so the sort is exercised). -/
theorem C3_listAll_sorted_by_date_desc_witness :
    (demoPostsSorted.get ⟨2, by simp [demoPostsSorted]⟩).date ≤
      (demoPostsSorted.get ⟨0, by simp [demoPostsSorted]⟩).date := by
  refine C3_listAll_sorted_by_date_desc demoFiles demoPostsSorted ?_
    ⟨0, by simp [demoPostsSorted]⟩ ⟨2, by simp [demoPostsSorted]⟩ (by decide)
  simp [getBlogPosts, readPosts, demoFiles, List.mergeSort, dateDesc,
    demoFM1, demoFM2, demoFM3, toPost, demoPostsSorted]

/-! ### Claim C4 -/

/-- Claim C4: `getBlogPost` returns the post of the matching document
(carrying exactly the requested slug) when one is present and
well-formed, returns `none` when no document matches, and every
successful result carries the requested slug; the `Option` return type
is the model of its catch-all `try`/`catch` (it never throws). -/
theorem C4_getBySlug_not_found :
    ∀ (files : List SourceFile) (slug : Str),
      (∀ (f : SourceFile) (fm : FrontMatter),
        files.find? (fun g => g.name == slug ++ mdxExt) = some f →
        f.parsed = some fm →
        getBlogPost files slug =
          some { slug := slug, title := fm.title, date := fm.date,
                 description := fm.description, content := fm.content,
                 tags := fm.tags, author := fm.author,
                 readingTime := fm.readingTime, image := fm.image }) ∧
      ((∀ f ∈ files, f.name ≠ slug ++ mdxExt) →
        getBlogPost files slug = none) ∧
      (∀ p, getBlogPost files slug = some p → p.slug = slug) := by
  intro files slug
  refine ⟨?_, ?_, ?_⟩
  · intro f fm hfind hparse
    simp only [getBlogPost, hfind, hparse]
  · intro h
    have : files.find? (fun g => g.name == slug ++ mdxExt) = none := by
      rw [List.find?_eq_none]
      intro f hf
      simpa using h f hf
    simp only [getBlogPost, this]
  · intro p hp
    unfold getBlogPost at hp
    cases hfind : files.find? (fun g => g.name == slug ++ mdxExt) with
    | none => rw [hfind] at hp; cases hp
    | some f =>
      rw [hfind] at hp
      simp only at hp
      cases hparse : f.parsed with
      | none => rw [hparse] at hp; cases hp
      | some fm =>
        rw [hparse] at hp
        simp only at hp
        injection hp with hp
        rw [← hp]

/-- Witness for claim C4: a present slug yields its post, an absent slug
yields `none`. -/
theorem C4_getBySlug_not_found_witness :
    getBlogPost demoFiles "alpha".toList =
      some { slug := "alpha".toList, title := demoFM1.title,
             date := demoFM1.date, description := demoFM1.description,
             content := demoFM1.content, tags := demoFM1.tags,
             author := demoFM1.author, readingTime := demoFM1.readingTime,
             image := demoFM1.image } ∧
    getBlogPost demoFiles "missing".toList = none := by
  constructor
  · exact (C4_getBySlug_not_found demoFiles "alpha".toList).1
      { name := "alpha.mdx".toList, parsed := some demoFM1 } demoFM1
      (by decide) rfl
  · exact (C4_getBySlug_not_found demoFiles "missing".toList).2.1
      (by decide)

theorem mem_jsSetDedup (l : List Str) (t : Str) :
    t ∈ jsSetDedup l ↔ t ∈ l := by
  induction l using jsSetDedup.induct with
  | case1 => simp [jsSetDedup]
  | case2 x xs ih =>
    rw [jsSetDedup]
    by_cases hx : t = x
    · subst hx
      simp
    · simp only [List.mem_cons, ih, List.mem_filter, decide_eq_true_eq]
      constructor
      · rintro (h | ⟨h, _⟩)
        · exact Or.inl h
        · exact Or.inr h
      · rintro (h | h)
        · exact Or.inl h
        · exact Or.inr ⟨h, hx⟩

theorem nodup_jsSetDedup (l : List Str) : (jsSetDedup l).Nodup := by
  induction l using jsSetDedup.induct with
  | case1 => simp [jsSetDedup]
  | case2 x xs ih =>
    rw [jsSetDedup]
    refine List.Nodup.cons ?_ ih
    rw [mem_jsSetDedup]
    simp

/-! ### Claim C5 -/

/-- Claim C5: `getBlogPostsBySearch q` is exactly the sub-listing of
`getBlogPosts` whose title or description contains `q` as a
case-insensitive substring, and the round-trip holds: searching for a
post's own lowercased title includes that post. -/
theorem C5_search_exact_subset_roundtrip :
    (∀ (files : List SourceFile) (q : Str) (posts : List BlogPost),
      getBlogPosts files = .ok posts →
      getBlogPostsBySearch files q =
        .ok (posts.filter (fun p =>
          decide (containsCaseInsensitive p.title q ∨
                  containsCaseInsensitive p.description q)))) ∧
    (∀ (files : List SourceFile) (posts : List BlogPost) (p : BlogPost),
      getBlogPosts files = .ok posts → p ∈ posts →
      ∃ result, getBlogPostsBySearch files (toLowerCase p.title) = .ok result ∧
        p ∈ result) := by
  constructor
  · intro files q posts h
    simp only [getBlogPostsBySearch, h]
    congr 1
    apply List.filter_congr
    intro p _
    simp [matchesSearch, includes, containsCaseInsensitive, Bool.decide_or]
  · intro files posts p h hp
    refine ⟨posts.filter (matchesSearch (toLowerCase (toLowerCase p.title))),
      by simp only [getBlogPostsBySearch, h], ?_⟩
    rw [List.mem_filter]
    refine ⟨hp, ?_⟩
    simp [matchesSearch, toLowerCase_idem, includes, List.infix_refl]

/-- Witness for claim C5 at the demo content set, with the query
`"first"` (matching one description) and the round-trip at the most
recent post. -/
theorem C5_search_exact_subset_roundtrip_witness :
    getBlogPostsBySearch demoFiles "first".toList =
      .ok (demoPostsSorted.filter (fun p =>
        decide (containsCaseInsensitive p.title "first".toList ∨
                containsCaseInsensitive p.description "first".toList))) ∧
    ∃ result,
      getBlogPostsBySearch demoFiles
        (toLowerCase (toPost "alpha.mdx".toList demoFM1).title) = .ok result ∧
      toPost "alpha.mdx".toList demoFM1 ∈ result := by
  constructor
  · refine C5_search_exact_subset_roundtrip.1 demoFiles "first".toList
      demoPostsSorted ?_
    simp [getBlogPosts, readPosts, demoFiles, List.mergeSort, dateDesc,
      demoFM1, demoFM2, demoFM3, toPost, demoPostsSorted]
  · refine C5_search_exact_subset_roundtrip.2 demoFiles demoPostsSorted
      (toPost "alpha.mdx".toList demoFM1) ?_ (by decide)
    simp [getBlogPosts, readPosts, demoFiles, List.mergeSort, dateDesc,
      demoFM1, demoFM2, demoFM3, toPost, demoPostsSorted]

/-! ### Claim C9 -/

/-- Claim C9: `getBlogPostsByTag t` is exactly the sub-listing of
`getBlogPosts` whose `tags` contain an exact (case-sensitive) match for
`t`, and the tags page's distinct-tag list is the de-duplicated union of
all tags across the listing. -/
theorem C9_byTag_and_distinctTags :
    ∀ (files : List SourceFile) (tag : Str) (posts : List BlogPost),
      getBlogPosts files = .ok posts →
      getBlogPostsByTag files tag =
        .ok (posts.filter (fun p => decide (tag ∈ p.tags))) ∧
      (∃ ts, tagsPageTags files = .ok ts ∧ ts.Nodup ∧
        ∀ t, t ∈ ts ↔ ∃ p ∈ posts, t ∈ p.tags) := by
  intro files tag posts h
  constructor
  · simp only [getBlogPostsByTag, h]
    congr 1
    apply List.filter_congr
    intro p _
    rw [Bool.eq_iff_iff, decide_eq_true_eq, List.elem_iff]
  · refine ⟨jsSetDedup (posts.flatMap (fun p => p.tags)),
      by simp only [tagsPageTags, h], nodup_jsSetDedup _, ?_⟩
    intro t
    rw [mem_jsSetDedup, List.mem_flatMap]

/-- Witness for claim C9 at the demo content set with the tag
`"dotnet"`. -/
theorem C9_byTag_and_distinctTags_witness :
    getBlogPostsByTag demoFiles "dotnet".toList =
      .ok (demoPostsSorted.filter
        (fun p => decide ("dotnet".toList ∈ p.tags))) ∧
    (∃ ts, tagsPageTags demoFiles = .ok ts ∧ "web".toList ∈ ts) := by
  have h : getBlogPosts demoFiles = .ok demoPostsSorted := by
    simp [getBlogPosts, readPosts, demoFiles, List.mergeSort, dateDesc,
      demoFM1, demoFM2, demoFM3, toPost, demoPostsSorted]
  obtain ⟨htag, htags⟩ :=
    C9_byTag_and_distinctTags demoFiles "dotnet".toList demoPostsSorted h
  refine ⟨htag, ?_⟩
  obtain ⟨ts, hts, _, hiff⟩ := htags
  refine ⟨ts, hts, (hiff _).mpr ?_⟩
  exact ⟨toPost "alpha.mdx".toList demoFM1, by decide, by decide⟩

/-! ### Claim C10 -/

/-- Claim C10: search results are an order-preserving subsequence of the
full listing — filtering never reorders, so recency order is kept. -/
theorem C10_search_order_preserving :
    ∀ (files : List SourceFile) (q : Str) (posts result : List BlogPost),
      getBlogPosts files = .ok posts →
      getBlogPostsBySearch files q = .ok result →
      result.Sublist posts := by
  intro files q posts result h hs
  simp only [getBlogPostsBySearch, h] at hs
  injection hs with hs
  rw [← hs]
  exact List.filter_sublist posts

/-- Witness for claim C10: the demo search for `"first"` returns the
single matching post, a subsequence of the full listing. -/
theorem C10_search_order_preserving_witness :
    List.Sublist [toPost "alpha.mdx".toList demoFM1] demoPostsSorted := by
  refine C10_search_order_preserving demoFiles "first".toList
    demoPostsSorted [toPost "alpha.mdx".toList demoFM1] ?_ ?_
  · simp [getBlogPosts, readPosts, demoFiles, List.mergeSort, dateDesc,
      demoFM1, demoFM2, demoFM3, toPost, demoPostsSorted]
  · simp [getBlogPostsBySearch, getBlogPosts, readPosts, demoFiles,
      List.mergeSort, dateDesc, demoFM1, demoFM2, demoFM3, toPost,
      demoPostsSorted, matchesSearch, includes, toLowerCase, List.filter]
    decide

theorem jsSlice_natCast {α : Type} (l : List α) (a b : Nat) :
    jsSlice l (a : Int) (b : Int) = (l.drop a).take (b - a) := by
  unfold jsSlice jsSliceIndex
  have ha : ¬ ((a : Int) < 0) := by omega
  have hb : ¬ ((b : Int) < 0) := by omega
  rw [if_neg ha, if_neg hb]
  simp only [Int.toNat_natCast]
  rcases le_or_lt l.length a with h | h
  · rw [Nat.min_eq_right h, List.drop_eq_nil_of_le (le_refl l.length),
      List.drop_eq_nil_of_le h]
    simp
  · rw [Nat.min_eq_left (le_of_lt h), List.take_eq_take]
    simp only [List.length_drop]
    omega

theorem jsSlice_sublist {α : Type} (l : List α) (s e : Int) :
    (jsSlice l s e).Sublist l := by
  unfold jsSlice
  exact (List.take_sublist _ _).trans (List.drop_sublist _ _)

/-! ### Claim C6 -/

/-- Claim C6: pagination with page size 6 computes
`totalPages = ⌈count / 6⌉` and the half-open slice
`[(page-1)·6, min(count, page·6))` (stated as drop-then-take); the
concrete cases `count = 13, page = 2` and `count = 0, page = 1` behave
as claimed, and any page number whatsoever (including out-of-range ones)
yields a well-defined sub-collection — the slice never throws. -/
theorem C6_pagination :
    (blogPagePosts ((List.range 13).map demoPost) 2 =
       [demoPost 6, demoPost 7, demoPost 8, demoPost 9, demoPost 10,
        demoPost 11] ∧
     blogPageTotalPages ((List.range 13).map demoPost) = 3) ∧
    (blogPagePosts [] 1 = [] ∧ blogPageTotalPages [] = 0) ∧
    (∀ posts : List BlogPost,
      posts.length ≤ maxItemsPerPage * blogPageTotalPages posts ∧
      maxItemsPerPage * blogPageTotalPages posts <
        posts.length + maxItemsPerPage) ∧
    (∀ (posts : List BlogPost) (page : Nat), 1 ≤ page →
      blogPagePosts posts (page : Int) =
        (posts.drop ((page - 1) * maxItemsPerPage)).take maxItemsPerPage) ∧
    (∀ (posts : List BlogPost) (page : Int),
      (blogPagePosts posts page).Sublist posts) := by
  refine ⟨⟨by decide, by decide⟩, ⟨by decide, by decide⟩, ?_, ?_, ?_⟩
  · intro posts
    simp only [blogPageTotalPages, maxItemsPerPage]
    omega
  · intro posts page hp
    simp only [blogPagePosts, maxItemsPerPage, Nat.cast_ofNat]
    have key := jsSlice_natCast posts ((page - 1) * 6) ((page - 1) * 6 + 6)
    rw [Nat.add_sub_cancel_left] at key
    have e1 : (((page - 1) * 6 : Nat) : Int) = ((page : Int) - 1) * 6 := by
      omega
    have e2 : (((page - 1) * 6 + 6 : Nat) : Int) = ((page : Int) - 1) * 6 + 6 := by
      omega
    rw [e1, e2] at key
    exact key
  · intro posts page
    simp only [blogPagePosts]
    exact jsSlice_sublist _ _ _

/-- Witness for claim C6: the general slice formula applied at 13 posts,
page 2. -/
theorem C6_pagination_witness :
    blogPagePosts ((List.range 13).map demoPost) 2 =
      (((List.range 13).map demoPost).drop ((2 - 1) * maxItemsPerPage)).take
        maxItemsPerPage :=
  C6_pagination.2.2.2.1 ((List.range 13).map demoPost) 2 (by decide)

/-! ### Heading-id lemmas -/

theorem collapse_cons_word (c : Char) (l : Str) (hc : isWordChar c = true) :
    collapseNonWord (c :: l) = c :: collapseNonWord l := by
  cases l with
  | nil => simp [collapseNonWord, hc]
  | cons d ds => simp [collapseNonWord, hc]

theorem collapse_nonword_word (c d : Char) (l : Str)
    (hc : isWordChar c = false) (hd : isWordChar d = true) :
    collapseNonWord (c :: d :: l) = '-' :: collapseNonWord (d :: l) := by
  simp [collapseNonWord, hc, hd]

theorem collapse_nonword_nonword (c d : Char) (l : Str)
    (hc : isWordChar c = false) (hd : isWordChar d = false) :
    collapseNonWord (c :: d :: l) = collapseNonWord (d :: l) := by
  simp [collapseNonWord, hc, hd]

theorem mem_collapse (l : Str) (c : Char) (hc : c ∈ collapseNonWord l) :
    c = '-' ∨ c ∈ l := by
  induction l using collapseNonWord.induct with
  | case1 => cases hc
  | case2 d hd =>
    simp only [collapseNonWord, if_pos hd, List.mem_singleton] at hc
    exact Or.inr (by simp [hc])
  | case3 d hd =>
    simp only [collapseNonWord, if_neg hd, List.mem_singleton] at hc
    exact Or.inl hc
  | case4 d e rest hd ih =>
    rw [collapse_cons_word d _ hd] at hc
    rcases List.mem_cons.mp hc with hc | hc
    · exact Or.inr (by simp [hc])
    · rcases ih hc with h | h
      · exact Or.inl h
      · exact Or.inr (List.mem_cons_of_mem _ h)
  | case5 d e rest hd he ih =>
    rw [collapse_nonword_word d e rest (by simpa using hd) he] at hc
    rcases List.mem_cons.mp hc with hc | hc
    · exact Or.inl hc
    · rcases ih hc with h | h
      · exact Or.inl h
      · exact Or.inr (List.mem_cons_of_mem _ h)
  | case6 d e rest hd he ih =>
    rw [collapse_nonword_nonword d e rest (by simpa using hd)
      (by simpa using he)] at hc
    rcases ih hc with h | h
    · exact Or.inl h
    · exact Or.inr (List.mem_cons_of_mem _ h)

theorem collapse_idem (l : Str) :
    collapseNonWord (collapseNonWord l) = collapseNonWord l := by
  induction l using collapseNonWord.induct with
  | case1 => rfl
  | case2 d hd => simp [collapseNonWord, hd]
  | case3 d hd =>
    simp only [collapseNonWord, if_neg hd]
    decide
  | case4 d e rest hd ih =>
    rw [collapse_cons_word d _ hd, collapse_cons_word d _ hd, ih]
  | case5 d e rest hd he ih =>
    have hd' : isWordChar d = false := by simpa using hd
    rw [collapse_nonword_word d e rest hd' he]
    rw [collapse_cons_word e rest he] at ih ⊢
    rw [collapse_nonword_word '-' e _ (by decide) he, collapse_cons_word e _ he]
    rw [collapse_cons_word e _ he] at ih
    injection ih with h1 h2
    rw [h2]
  | case6 d e rest hd he ih =>
    rw [collapse_nonword_nonword d e rest (by simpa using hd)
      (by simpa using he)]
    exact ih

theorem toLowerCase_eq_self (l : Str) (h : ∀ c ∈ l, Char.toLower c = c) :
    toLowerCase l = l := by
  induction l with
  | nil => rfl
  | cons c cs ih =>
    simp only [toLowerCase, List.map_cons] at ih ⊢
    rw [h c (List.mem_cons_self _ _), ih (fun d hd => h d (List.mem_cons_of_mem _ hd))]

theorem toLowerCase_headingId (s : Str) :
    toLowerCase (headingId s) = headingId s := by
  apply toLowerCase_eq_self
  intro c hc
  rcases mem_collapse _ _ hc with h | h
  · subst h
    decide
  · obtain ⟨d, _, rfl⟩ := List.mem_map.mp h
    exact toLower_idem d

theorem headingId_idem (s : Str) :
    headingId (headingId s) = headingId s :=
  calc headingId (headingId s)
      = collapseNonWord (toLowerCase (headingId s)) := rfl
    _ = collapseNonWord (headingId s) := by rw [toLowerCase_headingId]
    _ = collapseNonWord (collapseNonWord (toLowerCase s)) := rfl
    _ = collapseNonWord (toLowerCase s) := collapse_idem _
    _ = headingId s := rfl

/-! ### Claim C7 -/

/-- Claim C7: heading extraction on `"# A\n## B\n### C"` yields the three
claimed headings in document order; every extracted heading's id is the
`headingId` transform (lowercase, non-word runs collapsed to a single
hyphen, no end stripping) of its text; the transform is deterministic
(it is a function) and idempotent; and `"N+1 Problem!"` maps to
`"n-1-problem-"`. -/
theorem C7_heading_extraction :
    extractHeadings "# A\n## B\n### C".toList =
      [ { id := "a".toList, text := "A".toList, level := 1 }
      , { id := "b".toList, text := "B".toList, level := 2 }
      , { id := "c".toList, text := "C".toList, level := 3 } ] ∧
    (∀ md : Str, (extractHeadings md).map (fun h => h.id) =
      (extractHeadings md).map (fun h => headingId h.text)) ∧
    (∀ s : Str, headingId (headingId s) = headingId s) ∧
    headingId "N+1 Problem!".toList = "n-1-problem-".toList := by
  refine ⟨by decide, ?_, headingId_idem, by decide⟩
  intro md
  simp only [extractHeadings, List.map_map]
  rfl

/-! ### Claim C8 -/

/-- Claim C8 fails as stated: on the heading `"# A **B**"`, whose content
has a bold span, the extracted text is `"A "` — the bold span's inner
text `"B"` is dropped, not included — whereas the concatenated literal
text of the spans is `"A B"`. -/
theorem C8_nested_formatting_counterexample :
    (extractHeadings "# A **B**".toList).map (fun h => h.text) =
      ["A ".toList] ∧
    literalTextList (parseInline "A **B**".toList) = "A B".toList ∧
    ("A ".toList : Str) ≠ "A B".toList := by
  refine ⟨by decide, by decide, by decide⟩

/-- The extractor's node filter: a top-level node contributes its value
iff it is a `text` or `inlineCode` node. -/
def isLiteralNode : Inline → Bool
  | .text _ => true
  | .inlineCode _ => true
  | .strong _ => false
  | .emphasis _ => false

/-- Claim C8, amended: a heading's extracted text is the concatenated
literal text of its top-level `text` and `inlineCode` children only;
bold/italic spans are filtered out entirely (their inner text does not
appear), while inline code does contribute its literal text. -/
theorem C8_nested_formatting_amended :
    (∀ children : List Inline,
      headingTextOfChildren children =
        literalTextList (children.filter isLiteralNode)) ∧
    extractHeadings "# A **B** `C`".toList =
      [ { id := "a-c".toList, text := "A  C".toList, level := 1 } ] := by
  constructor
  · intro children
    induction children with
    | nil => rfl
    | cons n ns ih =>
      cases n with
      | text v =>
        simp only [headingTextOfChildren, List.filterMap_cons,
          List.flatten_cons, List.filter_cons, isLiteralNode,
          literalTextList, literalText, if_pos] at ih ⊢
        rw [ih]
      | inlineCode v =>
        simp only [headingTextOfChildren, List.filterMap_cons,
          List.flatten_cons, List.filter_cons, isLiteralNode,
          literalTextList, literalText, if_pos] at ih ⊢
        rw [ih]
      | strong cs =>
        simp only [headingTextOfChildren, List.filterMap_cons,
          List.filter_cons, isLiteralNode, if_neg] at ih ⊢
        exact ih
      | emphasis cs =>
        simp only [headingTextOfChildren, List.filterMap_cons,
          List.filter_cons, isLiteralNode, if_neg] at ih ⊢
        exact ih
  · decide

end Blog
